import Mathlib

/-!
Shallow embedding of `src/sample.py` (Solana stake rotation simulation) and
verification of its specification claims.

Python floats are embedded as exact rationals (`ℚ`); the sources of randomness
(`np.random.choice`) are embedded as explicit oracle functions `ℕ → ℕ` giving,
for the `t`-th draw, a position into the current candidate pool.  Fallible
Python code (exceptions: `IndexError`, `ValueError`, `ZeroDivisionError`) is
embedded with `Option`, `none` standing for a raised exception.
-/

/-- `analyze_stakes` (src/sample.py lines 14-27): returns the running total of
the given stakes and the counts of stakes above the high limit
(`original_sum * 0.003`) resp. below the low limit (`original_sum * 0.00002`);
the low test is an `elif`, so it is only applied to stakes that did not pass
the high test. -/
def analyze_stakes (stakes : List ℚ) (original_sum : ℚ) : ℚ × ℕ × ℕ :=
  let high_stake_limit := original_sum * (3 / 1000)
  let low_stake_limit := original_sum * (2 / 100000)
  stakes.foldl
    (fun acc stake =>
      (acc.1 + stake,
       if high_stake_limit < stake then acc.2.1 + 1 else acc.2.1,
       if high_stake_limit < stake then acc.2.2
       else if stake < low_stake_limit then acc.2.2 + 1 else acc.2.2))
    (0, 0, 0)

/-- Models the `while select_from and stakes[select_from[-1]] > bound: select_from.pop()`
loop of `select_stakes` (src/sample.py lines 41-42): repeatedly drop the last
element while it satisfies the predicate. -/
def dropTailWhile (p : α → Bool) : List α → List α
  | [] => []
  | x :: xs =>
    match dropTailWhile p xs with
    | [] => if p x then [] else [x]
    | y :: ys => x :: y :: ys

/-- The `for _ in range(len(stakes))` loop of `select_stakes`
(src/sample.py lines 40-53), with explicit fuel (the Python loop runs at most
`len(stakes)` iterations).  `pick t` chooses the position (mod pool size) of
the `t`-th `np.random.choice(select_from)` draw.  Out-of-range index reads
cannot occur on the paths reachable from `select_stakes` (the wrapper guards
`max select_from < len stakes`), so list reads use `getD`. -/
def selectLoop (stakes : List ℚ) (target : ℚ) (pick : ℕ → ℕ) :
    ℕ → ℕ → List ℕ → ℚ → Finset ℕ → ℚ → Finset ℕ × ℚ
  | 0, _, _, current_sum, result, _ => (result, current_sum)
  | fuel + 1, t, select_from, current_sum, result, smallest_stake =>
    let sf := dropTailWhile (fun i => decide (target - current_sum < stakes.getD i 0)) select_from
    if sf = [] then (result, current_sum)
    else
      let index := sf.getD (pick t % sf.length) 0
      let stake := stakes.getD index 0
      let new_sum := current_sum + stake
      let new_result := insert index result
      let sf2 := sf.erase index
      let new_smallest :=
        if stake = smallest_stake ∧ sf2 ≠ [] then stakes.getD (sf2.headD 0) 0
        else smallest_stake
      if target ≤ new_sum ∨ target < new_sum + new_smallest then (new_result, new_sum)
      else selectLoop stakes target pick fuel (t + 1) sf2 new_sum new_result new_smallest

/-- `select_stakes` (src/sample.py lines 29-54).  The candidate pool is the
sorted candidate set if given, else `range(len(stakes))`.  Python reads
`stakes[select_from[0]]` and `stakes[select_from[-1]]` before the loop, so an
empty pool, or a candidate index out of range (the maximal candidate, since the
pool is sorted ascending), raises `IndexError`: embedded as `none`. -/
def select_stakes (stakes : List ℚ) (target_stake_sum : ℚ) (candidates : Option (Finset ℕ))
    (pick : ℕ → ℕ) : Option (Finset ℕ × ℚ × ℚ) :=
  let select_from :=
    match candidates with
    | some c => c.sort (· ≤ ·)
    | none => List.range stakes.length
  if select_from = [] then none
  else if stakes.length ≤ select_from.getLastD 0 then none
  else
    let smallest_stake := stakes.getD (select_from.headD 0) 0
    let biggest_candidate := stakes.getD (select_from.getLastD 0) 0
    let out := selectLoop stakes target_stake_sum pick stakes.length 0 select_from 0 ∅ smallest_stake
    some (out.1, out.2, biggest_candidate)

/-- The adversarial (non-conforming) index set construction performed by `main`
(src/sample.py lines 144-146): `select_stakes(original_stakes,
sum(original_stakes) * args.non_conforming / 100)`, keeping only the returned
index set. -/
def main_non_conforming (stakes : List ℚ) (non_conforming : ℚ) (pick : ℕ → ℕ) :
    Option (Finset ℕ) :=
  (select_stakes stakes (stakes.sum * non_conforming / 100) none pick).map (fun r => r.1)

/-- Modelled from the spec: the retry loop of the bounded-retry-uniform
strategy of spec section 4.2 (which has no implementation in src/): repeatedly
pick a uniformly random index from the entire population, skip it if already
selected or if adding it would exceed `budget * (1 + eps)`, accept otherwise;
stop once the running sum reaches the budget or after `fuel` retries. -/
def brLoop (stakes : List ℚ) (budget eps : ℚ) (pick : ℕ → ℕ) :
    ℕ → ℕ → Finset ℕ → ℚ → Finset ℕ × ℚ
  | 0, _, selected, s => (selected, s)
  | fuel + 1, t, selected, s =>
    if budget ≤ s then (selected, s)
    else
      let i := pick t % stakes.length
      if i ∈ selected ∨ budget * (1 + eps) < s + stakes.getD i 0 then
        brLoop stakes budget eps pick fuel (t + 1) selected s
      else
        brLoop stakes budget eps pick fuel (t + 1) (insert i selected) (s + stakes.getD i 0)

/-- Modelled from the spec: the bounded-retry-uniform selector of spec section
4.2, missing from src/.  `ceiling` is the fixed retry ceiling; the returned
set is whatever was accumulated when the loop stops (best effort, not an
error). -/
def bounded_retry_uniform (stakes : List ℚ) (budget eps : ℚ) (ceiling : ℕ)
    (pick : ℕ → ℕ) : Finset ℕ × ℚ :=
  brLoop stakes budget eps pick ceiling 0 ∅ 0

/-- `np.linspace(start, stop, num)` with default `endpoint=True`: `num` evenly
spaced points from `start` to `stop` inclusive. -/
def linspace (start stop : ℚ) : ℕ → List ℚ
  | 0 => []
  | 1 => [start]
  | n + 2 => (List.range (n + 2)).map (fun i : ℕ => start + (stop - start) * (i : ℚ) / ((n : ℚ) + 1))

/-- One point of `np.interp`: walk the sample-point/value pairs (with strictly
increasing sample points) and linearly interpolate, clipping outside the
sampled range. -/
def interpSegments : List (ℚ × ℚ) → ℚ → ℚ
  | [], _ => 0
  | [(_, fx)], _ => fx
  | (x0, f0) :: (x1, f1) :: rest, t =>
    if t ≤ x0 then f0
    else if t ≤ x1 then f0 + (f1 - f0) * (t - x0) / (x1 - x0)
    else interpSegments ((x1, f1) :: rest) t

/-- `np.interp(xnew, x, fp)`: raises `ValueError` (here `none`) when the array
of sample points is empty. -/
def np_interp (xnew x fp : List ℚ) : Option (List ℚ) :=
  if x = [] then none
  else some (xnew.map (interpSegments (x.zip fp)))

/-- `interpolate_stakes` (src/sample.py lines 127-137): returns the input
unchanged when it already has at least `interpolate` entries, otherwise
appends `interpolate - count` linearly interpolated values and sorts the
result ascending (Python `list.sort`, modelled by `List.insertionSort`). -/
def interpolate_stakes (stakes : List ℚ) (interpolate : ℕ) : Option (List ℚ) :=
  let count_stakes := stakes.length
  if interpolate ≤ count_stakes then some stakes
  else
    let x := linspace 0 ((count_stakes : ℚ) - 1) count_stakes
    let xnew := linspace 0 ((count_stakes : ℚ) - 1) (interpolate - count_stakes)
    (np_interp xnew x stakes).map (fun interpolated =>
      (stakes ++ interpolated).insertionSort (· ≤ ·))

/-- Keys of the `mins`/`maxs` Python dicts of `perform_simulation`:
the integer keys `0,1,2` (components of `stakes_stats`) and the three string
keys. -/
inductive SimKey where
  | stat : ℕ → SimKey
  | nonConforming : SimKey
  | biggestCandidate : SimKey
  | rotateNumber : SimKey
deriving DecidableEq, Repr

/-- `d.get(k, v)` on a Python dict modelled as an insertion-ordered
association list. -/
def dictGet (d : List (SimKey × ℚ)) (k : SimKey) (v : ℚ) : ℚ :=
  match d.find? (fun kv => kv.1 == k) with
  | some kv => kv.2
  | none => v

/-- `d[k] = v` on a Python dict modelled as an insertion-ordered association
list: overwrite in place if the key is present, else append. -/
def dictSet (d : List (SimKey × ℚ)) (k : SimKey) (v : ℚ) : List (SimKey × ℚ) :=
  if d.any (fun kv => kv.1 == k) then d.map (fun kv => if kv.1 == k then (k, v) else kv)
  else d ++ [(k, v)]

/-- The repeated `mins[k] = min(mins.get(k, value), value)` /
`maxs[k] = max(maxs.get(k, value), value)` pattern of `perform_simulation`. -/
def record_range (mm : List (SimKey × ℚ) × List (SimKey × ℚ)) (k : SimKey) (v : ℚ) :
    List (SimKey × ℚ) × List (SimKey × ℚ) :=
  (dictSet mm.1 k (min (dictGet mm.1 k v) v), dictSet mm.2 k (max (dictGet mm.2 k v) v))

/-- The mutable state of `perform_simulation` (src/sample.py lines 61-69):
per-index membership states (`0` idle, `1` serving, `2` cooling), the list of
serving stake values (`choices`), the serving index set, the last eviction
count, the two extrema dicts, and the three tertile bucket counters. -/
structure SimState where
  states : List ℕ
  choices : List ℚ
  serving : Finset ℕ
  rotate_number : ℕ
  mins : List (SimKey × ℚ)
  maxs : List (SimKey × ℚ)
  ncCounts : ℕ × ℕ × ℕ
deriving DecidableEq

/-- Draw `size` successive elements from a shrinking pool, the `t`-th at the
position `pick t % pool.length`; each drawn element is removed before the next
draw.  Used to model the support of `np.random.choice(..., replace=False)`. -/
def drawDistinct (pick : ℕ → ℕ) : ℕ → List ℕ → ℕ → List ℕ
  | 0, _, _ => []
  | size + 1, pool, t =>
    let i := pool.getD (pick t % pool.length) 0
    i :: drawDistinct pick size (pool.erase i) (t + 1)

/-- Models `np.random.choice(available, size=size, replace=False, p=w/sum w)`
(src/sample.py lines 83-87).  `none` models the `ValueError`s numpy raises:
empty population, a negative probability entry, probabilities that do not sum
to one (zero or negative total weight), or fewer positive-probability entries
than `size`.  On success the draw returns `size` distinct indices taken from
the positive-weight entries via the oracle. -/
def np_choice (available : List ℕ) (w : ℕ → ℚ) (size : ℕ) (pick : ℕ → ℕ) :
    Option (List ℕ) :=
  if available.isEmpty then none
  else if available.any (fun i => w i < 0) then none
  else if (available.map w).sum ≤ 0 then none
  else if (available.filter (fun i => 0 < w i)).length < size then none
  else some (drawDistinct pick size (available.filter (fun i => 0 < w i)) 0)

/-- The refill scan of `perform_simulation` (src/sample.py lines 74-81): walk
all indices once, collecting the idle ones (state `0`) as the eligible pool
and lazily reverting cooling indices (state `2`) to idle. -/
def refill_scan (count : ℕ) (states : List ℕ) : List ℕ × List ℕ :=
  ((List.range count).filter (fun i => states.getD i 0 == 0),
   states.map (fun s => if s = 2 then 0 else s))

/-- `select_count` of a round (src/sample.py line 73): the full `samples`
quota while `choices` is empty (round 0, or after a total eviction), else the
previous round's eviction count. -/
def selectCount (samples : ℕ) (st : SimState) : ℕ :=
  if st.choices.length = 0 then samples else st.rotate_number

/-- REFILL phase of one round (src/sample.py lines 73-91): build the eligible
pool, draw `selectCount` new members weighted by stake, mark them serving and
append their stakes to `choices`. -/
def refill (stakes : List ℚ) (samples : ℕ) (sPick : ℕ → ℕ) (st : SimState) :
    Option SimState :=
  match np_choice (refill_scan stakes.length st.states).1
      (fun i => stakes.getD i 0 / stakes.sum) (selectCount samples st) sPick with
  | none => none
  | some chosen =>
    some { st with
      states := chosen.foldl (fun s i => s.set i 1) (refill_scan stakes.length st.states).2,
      serving := chosen.foldl (fun sv i => insert i sv) st.serving,
      choices := st.choices ++ chosen.map (fun i => stakes.getD i 0) }

/-- The tertile bucket classification of the non-conforming ratio
(src/sample.py lines 102-107). -/
def classify_buckets (ratio : ℚ) (c : ℕ × ℕ × ℕ) : ℕ × ℕ × ℕ :=
  if 2 / 3 < ratio then (c.1, c.2.1, c.2.2 + 1)
  else if 1 / 2 < ratio then (c.1, c.2.1 + 1, c.2.2)
  else if 1 / 3 < ratio then (c.1 + 1, c.2.1, c.2.2)
  else c

/-- MEASURE phase of one round (src/sample.py lines 92-107): run
`analyze_stakes` on `choices`, fold the three statistics into the extrema
dicts, compute the non-conforming ratio (Python raises `ZeroDivisionError`,
here `none`, when the round total is zero), record it and classify it into
the tertile buckets.  Returns the updated state and the round statistics. -/
def measureRound (stakes : List ℚ) (nci : Finset ℕ) (st : SimState) :
    Option (SimState × (ℚ × ℕ × ℕ)) :=
  let stats := analyze_stakes st.choices stakes.sum
  let mm0 := record_range (st.mins, st.maxs) (SimKey.stat 0) stats.1
  let mm1 := record_range mm0 (SimKey.stat 1) (stats.2.1 : ℚ)
  let mm2 := record_range mm1 (SimKey.stat 2) (stats.2.2 : ℚ)
  if stats.1 = 0 then none
  else
    let ratio := (Finset.sum (st.serving.filter (fun i => i ∈ nci)) fun i => stakes.getD i 0) / stats.1
    let mm3 := record_range mm2 SimKey.nonConforming ratio
    let st2 := { st with
      mins := mm3.1
      maxs := mm3.2
      ncCounts := classify_buckets ratio st.ncCounts }
    some (st2, stats)

/-- One eviction (loop body of src/sample.py lines 121-124): mark the index
cooling, drop it from the serving set, and remove its stake value (first
occurrence) from `choices`. -/
def evictStep (stakes : List ℚ) (s : SimState) (i : ℕ) : SimState :=
  { s with states := s.states.set i 2,
           serving := s.serving.erase i,
           choices := s.choices.erase (stakes.getD i 0) }

/-- EVICT phase of one round (src/sample.py lines 108-124): pick the serving
indices to rotate out via `select_stakes` with budget
`round_total * rotation / 100`, record the diagnostic extrema, store the
eviction count as the next round's admission quota, and apply the evictions.
The fold over the removed set is order-independent in every observable; it is
written over the ascending enumeration. -/
def evict (stakes : List ℚ) (rotation : ℚ) (rPick : ℕ → ℕ) (st : SimState)
    (stats : ℚ × ℕ × ℕ) : Option SimState :=
  let stakes_to_rotate := stats.1 * rotation / 100
  match select_stakes stakes stakes_to_rotate (some st.serving) rPick with
  | none => none
  | some (remove_indices, _removed_stakes, biggest_candidate) =>
    let bc := biggest_candidate / stats.1
    let mmA := record_range (st.mins, st.maxs) SimKey.biggestCandidate bc
    let rotate_number := remove_indices.card
    let mmB := record_range mmA SimKey.rotateNumber (rotate_number : ℚ)
    some ((remove_indices.sort (· ≤ ·)).foldl (evictStep stakes)
      { st with mins := mmB.1, maxs := mmB.2, rotate_number := rotate_number })

/-- One round of `perform_simulation` (src/sample.py lines 70-124):
REFILL, MEASURE, EVICT.  (The `print` on line 71-72 has no state effect.) -/
def stepRound (stakes : List ℚ) (nci : Finset ℕ) (samples : ℕ) (rotation : ℚ)
    (sPick rPick : ℕ → ℕ) (st : SimState) : Option SimState :=
  (refill stakes samples sPick st).bind fun st1 =>
    (measureRound stakes nci st1).bind fun ms =>
      evict stakes rotation rPick ms.1 ms.2

/-- Run `n` consecutive rounds starting at round index `r` (the round index
selects the oracle of each round). -/
def runFrom (stakes : List ℚ) (nci : Finset ℕ) (samples : ℕ) (rotation : ℚ)
    (sPick rPick : ℕ → ℕ → ℕ) : ℕ → ℕ → SimState → Option SimState
  | _, 0, st => some st
  | r, n + 1, st =>
    (stepRound stakes nci samples rotation (sPick r) (rPick r) st).bind
      (runFrom stakes nci samples rotation sPick rPick (r + 1) n)

/-- The initial state of `perform_simulation` (src/sample.py lines 61-69). -/
def initState (count : ℕ) : SimState :=
  { states := List.replicate count 0, choices := [], serving := ∅,
    rotate_number := 0, mins := [], maxs := [], ncCounts := (0, 0, 0) }

/-- `perform_simulation` (src/sample.py lines 56-125): run `rounds` rounds
from the empty initial state and return the extrema dicts and the tertile
bucket counts; `none` models a raised exception (the run aborts with no
result). -/
def perform_simulation (stakes : List ℚ) (nci : Finset ℕ) (samples : ℕ)
    (rotation : ℚ) (rounds : ℕ) (sPick rPick : ℕ → ℕ → ℕ) :
    Option (List (SimKey × ℚ) × List (SimKey × ℚ) × (ℕ × ℕ × ℕ)) :=
  (runFrom stakes nci samples rotation sPick rPick 0 rounds (initState stakes.length)).map
    (fun st => (st.mins, st.maxs, st.ncCounts))

section AnalyzeStakes

/-- Unfolded form of the `analyze_stakes` fold, with general accumulator. -/
lemma analyze_foldl (hi lo : ℚ) (l : List ℚ) :
    ∀ (t : ℚ) (h c : ℕ),
      l.foldl (fun acc stake =>
        (acc.1 + stake,
         if hi < stake then acc.2.1 + 1 else acc.2.1,
         if hi < stake then acc.2.2
         else if stake < lo then acc.2.2 + 1 else acc.2.2)) (t, h, c)
      = (t + l.sum, h + l.countP (fun s => decide (hi < s)),
         c + l.countP (fun s => decide (¬ hi < s ∧ s < lo))) := by
  induction l with
  | nil => intro t h c; simp
  | cons x xs ih =>
    intro t h c
    simp only [List.foldl_cons, List.sum_cons, List.countP_cons, ih]
    refine Prod.ext ?_ (Prod.ext ?_ ?_) <;> simp only
    · ring
    · by_cases hx : hi < x <;> simp [hx] <;> omega
    · by_cases hx : hi < x <;> by_cases hlo : x < lo <;> simp [hx, hlo] <;> omega

/-- `analyze_stakes` computes the stake total and the two threshold counts;
for a nonnegative population total the `elif` cannot mask a low count, so the
counts are exactly the counts of stakes above/below the two limits. -/
lemma analyze_stakes_eq (stakes : List ℚ) (S : ℚ) (hS : 0 ≤ S) :
    analyze_stakes stakes S =
      (stakes.sum, stakes.countP (fun s => decide (S * (3 / 1000) < s)),
       stakes.countP (fun s => decide (s < S * (2 / 100000)))) := by
  have hlohi : S * (2 / 100000) ≤ S * (3 / 1000) := by
    apply mul_le_mul_of_nonneg_left _ hS; norm_num
  simp only [analyze_stakes, analyze_foldl]
  refine Prod.ext (by simp) (Prod.ext (by simp) ?_)
  simp only [zero_add]
  refine List.countP_congr (fun s _ => ?_)
  by_cases h1 : S * (3 / 1000) < s <;> by_cases h2 : s < S * (2 / 100000) <;>
    simp [h1, h2]
  exact absurd (lt_of_lt_of_le (h2.trans_le hlohi) (le_of_lt h1)) (lt_irrefl s)

/-- The first component of `analyze_stakes` is always the list sum. -/
lemma analyze_stakes_total (stakes : List ℚ) (S : ℚ) :
    (analyze_stakes stakes S).1 = stakes.sum := by
  simp only [analyze_stakes, analyze_foldl, zero_add]

end AnalyzeStakes

section SelectStakes

lemma dropTailWhile_sublist (p : α → Bool) :
    ∀ l : List α, List.Sublist (dropTailWhile p l) l := by
  intro l
  induction l with
  | nil => simp [dropTailWhile]
  | cons x xs ih =>
    simp only [dropTailWhile]
    cases hxs : dropTailWhile p xs with
    | nil =>
      by_cases hp : p x
      · simp only [hp, if_true]
        exact List.nil_sublist _
      · simp only [hp, if_false]
        exact List.Sublist.cons₂ x (List.nil_sublist xs)
    | cons y ys => exact List.Sublist.cons₂ x (hxs ▸ ih)

lemma getLastD_irrel (d d' : α) (l : List α) (h : l ≠ []) :
    l.getLastD d = l.getLastD d' := by
  cases l with
  | nil => cases h rfl
  | cons x xs => rw [List.getLastD_cons, List.getLastD_cons]

lemma getLastD_mem (d : α) (l : List α) (h : l ≠ []) : l.getLastD d ∈ l := by
  cases l with
  | nil => cases h rfl
  | cons x xs =>
    rw [List.getLastD_cons]
    exact List.getLastD_mem_cons xs x

lemma dropTailWhile_getLastD (p : α → Bool) (d : α) :
    ∀ l : List α, dropTailWhile p l = [] ∨ p ((dropTailWhile p l).getLastD d) = false := by
  intro l
  induction l with
  | nil => left; rfl
  | cons x xs ih =>
    simp only [dropTailWhile]
    cases hxs : dropTailWhile p xs with
    | nil =>
      by_cases hp : p x
      · left; simp [hp]
      · right; simp [hp]
    | cons y ys =>
      rcases ih with h | h
      · rw [hxs] at h; cases h
      · right
        rw [hxs] at h
        rw [List.getLastD_cons, getLastD_irrel x d (y :: ys) (by simp)]
        exact h

lemma pairwise_le_getLastD {β : Type*} [Preorder β] (f : ℕ → β) :
    ∀ (l : List ℕ) (d : ℕ), l.Pairwise (fun i j => f i ≤ f j) →
      ∀ x ∈ l, f x ≤ f (l.getLastD d) := by
  intro l
  induction l with
  | nil => intro d _ x hx; cases hx
  | cons a as ih =>
    intro d hp x hx
    rw [List.getLastD_cons]
    rcases List.pairwise_cons.mp hp with ⟨ha, has⟩
    rcases List.mem_cons.mp hx with rfl | hxas
    · cases as with
      | nil => rw [List.getLastD_nil]
      | cons b bs =>
        exact ha _ (getLastD_mem x (b :: bs) (by simp))
    · exact ih a has x hxas

/-- Every element of a list that is pairwise-`≤`-sorted is at most its last
element. -/
lemma pairwise_nat_le_getLastD :
    ∀ (l : List ℕ) (d : ℕ), l.Pairwise (· ≤ ·) → ∀ x ∈ l, x ≤ l.getLastD d :=
  pairwise_le_getLastD (id : ℕ → ℕ)

lemma getD_mem_of_lt {l : List ℕ} {n : ℕ} (h : n < l.length) (d : ℕ) :
    l.getD n d ∈ l := by
  rw [List.getD_eq_get?, List.get?_eq_get h]
  exact List.get_mem l n h

/-- Position-wise monotonicity of an ascending stake list. -/
lemma sorted_getD_mono (stakes : List ℚ) (hs : stakes.Sorted (· ≤ ·)) {i j : ℕ}
    (hij : i ≤ j) (hj : j < stakes.length) : stakes.getD i 0 ≤ stakes.getD j 0 := by
  rcases Nat.eq_or_lt_of_le hij with rfl | hlt
  · exact le_refl _
  · have hi : i < stakes.length := lt_trans hlt hj
    have := (List.pairwise_iff_get.mp hs) ⟨i, hi⟩ ⟨j, hj⟩ hlt
    rw [List.getD_eq_get?, List.get?_eq_get hi, List.getD_eq_get?, List.get?_eq_get hj]
    simpa using this

/-- Core budget invariant of the selection loop: if the candidate list is
ascending in stake order and the running sum is within budget, the final sum
stays within budget (the tail pruning removes every candidate that would
overshoot, because the tail carries the largest stake). -/
lemma selectLoop_sum_le (stakes : List ℚ) (target : ℚ) (pick : ℕ → ℕ) :
    ∀ (fuel t : ℕ) (sf : List ℕ) (cs : ℚ) (res : Finset ℕ) (sm : ℚ),
      sf.Pairwise (fun i j => stakes.getD i 0 ≤ stakes.getD j 0) →
      cs ≤ target →
      (selectLoop stakes target pick fuel t sf cs res sm).2 ≤ target := by
  intro fuel
  induction fuel with
  | zero => intro t sf cs res sm _ hcs; simpa [selectLoop] using hcs
  | succ fuel ih =>
    intro t sf cs res sm hpair hcs
    simp only [selectLoop]
    set p : ℕ → Bool := fun i => decide (target - cs < stakes.getD i 0) with hp
    set sf' := dropTailWhile p sf with hsf'
    have hpair' : sf'.Pairwise (fun i j => stakes.getD i 0 ≤ stakes.getD j 0) :=
      hpair.sublist (dropTailWhile_sublist p sf)
    by_cases hempty : sf' = []
    · simpa [hempty] using hcs
    · simp only [hempty, if_false]
      have hlen : 0 < sf'.length := List.length_pos.mpr hempty
      have hmem : sf'.getD (pick t % sf'.length) 0 ∈ sf' :=
        getD_mem_of_lt (Nat.mod_lt _ hlen) 0
      have hlastp : p (sf'.getLastD 0) = false := by
        rcases dropTailWhile_getLastD p 0 sf with h | h
        · exact absurd h hempty
        · exact h
      have hlast_le : stakes.getD (sf'.getLastD 0) 0 ≤ target - cs := by
        have := of_decide_eq_false (hp ▸ hlastp)
        linarith [not_lt.mp this]
      have hnew : cs + stakes.getD (sf'.getD (pick t % sf'.length) 0) 0 ≤ target := by
        have := le_trans (pairwise_le_getLastD _ sf' 0 hpair' _ hmem) hlast_le
        linarith
      split
      all_goals split
      · exact hnew
      · exact ih (t + 1) _ _ _ _ (hpair'.sublist (List.erase_sublist _ _)) hnew
      · exact hnew
      · exact ih (t + 1) _ _ _ _ (hpair'.sublist (List.erase_sublist _ _)) hnew

/-- The selection loop only ever adds candidates from the pool. -/
lemma selectLoop_subset (stakes : List ℚ) (target : ℚ) (pick : ℕ → ℕ) :
    ∀ (fuel t : ℕ) (sf : List ℕ) (cs : ℚ) (res : Finset ℕ) (sm : ℚ) (S : Finset ℕ),
      (∀ x ∈ sf, x ∈ S) → res ⊆ S →
      (selectLoop stakes target pick fuel t sf cs res sm).1 ⊆ S := by
  intro fuel
  induction fuel with
  | zero => intro t sf cs res sm S _ hres; simpa [selectLoop] using hres
  | succ fuel ih =>
    intro t sf cs res sm S hsf hres
    simp only [selectLoop]
    set p : ℕ → Bool := fun i => decide (target - cs < stakes.getD i 0) with hp
    set sf' := dropTailWhile p sf with hsf'
    have hsf'S : ∀ x ∈ sf', x ∈ S := fun x hx =>
      hsf x ((dropTailWhile_sublist p sf).subset hx)
    by_cases hempty : sf' = []
    · simpa [hempty] using hres
    · simp only [hempty, if_false]
      have hlen : 0 < sf'.length := List.length_pos.mpr hempty
      have hmem : sf'.getD (pick t % sf'.length) 0 ∈ S :=
        hsf'S _ (getD_mem_of_lt (Nat.mod_lt _ hlen) 0)
      have hres' : insert (sf'.getD (pick t % sf'.length) 0) res ⊆ S :=
        Finset.insert_subset hmem hres
      have herase : ∀ x ∈ sf'.erase (sf'.getD (pick t % sf'.length) 0), x ∈ S :=
        fun x hx => hsf'S x ((List.erase_sublist _ _).subset hx)
      split
      all_goals split
      · exact hres'
      · exact ih (t + 1) _ _ _ _ S herase hres'
      · exact hres'
      · exact ih (t + 1) _ _ _ _ S herase hres'

end SelectStakes

section ClaimC2C8C10

/-- C2 counterexample: on the nonnegative weight list `[10, 1]` (not sorted
ascending) with budget `5` and the oracle drawing position 0, `select_stakes`
returns the set {0} with achieved sum 10, which exceeds `5 * 1.01`: the tail
pruning of the greedy-shrinking selector only inspects the last candidate of
the index-sorted pool, which carries the largest weight only when the weight
list is ascending. -/
theorem claim_C2_counterexample :
    select_stakes [10, 1] 5 none (fun _ => 0) = some ({0}, 10, 1) ∧
      ¬ ((10 : ℚ) ≤ 5 * (101 / 100)) := by
  constructor
  · with_unfolding_all decide
  · with_unfolding_all decide

/-- C2 (amended): for weight lists sorted ascending (as the interpolated
population of `main` is) and any candidate set, any budget `≥ 0` and any
oracle, the achieved sum returned by `select_stakes` never exceeds the budget
at all — hence in particular never exceeds `budget * 1.01`. -/
theorem claim_C2_select_stakes_budget (stakes : List ℚ) (target : ℚ)
    (cand : Option (Finset ℕ)) (pick : ℕ → ℕ) (res : Finset ℕ) (s b : ℚ)
    (hsorted : stakes.Sorted (· ≤ ·)) (htarget : 0 ≤ target)
    (h : select_stakes stakes target cand pick = some (res, s, b)) :
    s ≤ target ∧ s ≤ target * (101 / 100) := by
  have hmain : s ≤ target := by
    rcases cand with _ | c
    · simp only [select_stakes] at h
      split at h
      · cases h
      · split at h
        · cases h
        · rename_i hne hlast
          simp only [Option.some.injEq, Prod.mk.injEq] at h
          have hpair : (List.range stakes.length).Pairwise
              (fun i j => stakes.getD i 0 ≤ stakes.getD j 0) := by
            refine (List.pairwise_lt_range stakes.length).imp_of_mem ?_
            intro a c ha hc hac
            exact sorted_getD_mono stakes hsorted (le_of_lt hac) (List.mem_range.mp hc)
          have := selectLoop_sum_le stakes target pick stakes.length 0
            (List.range stakes.length) 0 ∅
            (stakes.getD ((List.range stakes.length).headD 0) 0) hpair htarget
          rw [h.2.1] at this
          exact this
    · simp only [select_stakes] at h
      split at h
      · cases h
      · split at h
        · cases h
        · rename_i hne hlast
          simp only [Option.some.injEq, Prod.mk.injEq] at h
          have hsortle : (c.sort (· ≤ ·)).Pairwise (· ≤ ·) := Finset.sort_sorted _ _
          have hbound : ∀ x ∈ c.sort (· ≤ ·), x < stakes.length := by
            intro x hx
            have hxle := pairwise_nat_le_getLastD (c.sort (· ≤ ·)) 0 hsortle x hx
            exact lt_of_le_of_lt hxle (not_le.mp hlast)
          have hpair : (c.sort (· ≤ ·)).Pairwise
              (fun i j => stakes.getD i 0 ≤ stakes.getD j 0) := by
            refine hsortle.imp_of_mem ?_
            intro a d ha hd had
            exact sorted_getD_mono stakes hsorted had (hbound d hd)
          have := selectLoop_sum_le stakes target pick stakes.length 0
            (c.sort (· ≤ ·)) 0 ∅
            (stakes.getD ((c.sort (· ≤ ·)).headD 0) 0) hpair htarget
          rw [h.2.1] at this
          exact this
  refine ⟨hmain, le_trans hmain ?_⟩
  have : target * (101 / 100) - target = target * (1 / 100) := by ring
  nlinarith

/-- Witness for C2 (amended) at the sorted list `[1, 2]`, budget 2, oracle
drawing position 0. -/
theorem claim_C2_select_stakes_budget_witness :
    (1 : ℚ) ≤ 2 ∧ (1 : ℚ) ≤ 2 * (101 / 100) := by
  refine claim_C2_select_stakes_budget [1, 2] 2 none (fun _ => 0) {0} 1 2 ?_ ?_ ?_
  · exact List.sorted_cons.mpr ⟨by intro x hx; simp at hx; simp [hx], by simp⟩
  · norm_num
  · with_unfolding_all decide

/-- C10: `select_stakes` requires a non-empty candidate pool: with an empty
stakes list (and no candidate set) or with an empty candidate set it raises
`IndexError` at `stakes[select_from[0]]` before any selection (modelled as
`none`) rather than returning an empty selection of sum 0. -/
theorem claim_C10_select_stakes_empty_pool :
    (∀ (target : ℚ) (pick : ℕ → ℕ), select_stakes [] target none pick = none) ∧
    (∀ (stakes : List ℚ) (target : ℚ) (pick : ℕ → ℕ),
      select_stakes stakes target (some ∅) pick = none) := by
  constructor
  · intro target pick; rfl
  · intro stakes target pick
    simp [select_stakes]

/-- C8 counterexample: on `stakes = [1, 2]` with a 50 percent target (budget
`3/2`) and the oracle that always draws position 1, `main`'s construction
(`select_stakes` on the full population) returns the set {0}, while the
spec's bounded-retry-uniform strategy (with tolerance `1/10000` and any
positive retry ceiling, here 8) returns the empty set: the strategy actually
used prunes overweight candidates out of a shrinking pool and keeps drawing,
while bounded-retry-uniform keeps skipping the same overweight draw. -/
theorem claim_C8_counterexample :
    main_non_conforming [1, 2] 50 (fun _ => 1) = some {0} ∧
    (bounded_retry_uniform [1, 2] (([1, 2] : List ℚ).sum * 50 / 100) (1 / 10000) 8
        (fun _ => 1)).1 = ∅ ∧
    main_non_conforming [1, 2] 50 (fun _ => 1) ≠
      some (bounded_retry_uniform [1, 2] (([1, 2] : List ℚ).sum * 50 / 100) (1 / 10000) 8
        (fun _ => 1)).1 := by
  refine ⟨?_, ?_, ?_⟩
  · with_unfolding_all decide
  · with_unfolding_all decide
  · with_unfolding_all decide

/-- C8 (amended): the adversarial (non-conforming) index set handed to the
simulation by `main` is constructed by the greedy-shrinking selector
`select_stakes`, applied to the entire population (no candidate set) with
weight budget `sum(stakes) * percent / 100` — not by the spec's
bounded-retry-uniform strategy (see the counterexample). -/
theorem claim_C8_adversarial_construction (stakes : List ℚ) (pct : ℚ) (pick : ℕ → ℕ) :
    main_non_conforming stakes pct pick =
      (select_stakes stakes (stakes.sum * pct / 100) none pick).map (fun r => r.1) := rfl

end ClaimC2C8C10

section ClaimC9

lemma linspace_length (start stop : ℚ) : ∀ n, (linspace start stop n).length = n := by
  intro n
  match n with
  | 0 => rfl
  | 1 => rfl
  | n + 2 =>
    show ((List.range (n + 2)).map
      (fun i : ℕ => start + (stop - start) * (i : ℚ) / ((n : ℚ) + 1))).length = n + 2
    rw [List.length_map, List.length_range]

/-- C9 counterexample: on the empty weight list with target count 1 the code
does not return a length-1 sorted list; `np.interp` raises `ValueError`
(empty array of sample points), modelled as `none`. -/
theorem claim_C9_counterexample : interpolate_stakes [] 1 = none := by
  with_unfolding_all decide

/-- C9 (amended): `interpolate_stakes` returns its input unchanged when the
list already has at least `n` entries; for a NON-EMPTY list shorter than `n`
it returns a list of length exactly `n` sorted ascending.  (For the empty
list and positive `n` the call fails instead — see the counterexample.) -/
theorem claim_C9_interpolate (stakes : List ℚ) (n : ℕ) :
    (n ≤ stakes.length → interpolate_stakes stakes n = some stakes) ∧
    (stakes ≠ [] → stakes.length < n →
      ∃ l, interpolate_stakes stakes n = some l ∧ l.length = n ∧
        l.Sorted (· ≤ ·)) := by
  constructor
  · intro hle
    simp [interpolate_stakes, hle]
  · intro hne hlt
    have hnle : ¬ n ≤ stakes.length := not_le.mpr hlt
    have hxne : linspace 0 ((stakes.length : ℚ) - 1) stakes.length ≠ [] := by
      intro hx
      have := linspace_length 0 ((stakes.length : ℚ) - 1) stakes.length
      rw [hx] at this
      exact hne (List.length_eq_zero.mp this.symm)
    refine ⟨((stakes ++
        (linspace 0 ((stakes.length : ℚ) - 1) (n - stakes.length)).map
          (interpSegments ((linspace 0 ((stakes.length : ℚ) - 1) stakes.length).zip
            stakes))).insertionSort (· ≤ ·)), ?_, ?_, ?_⟩
    · simp only [interpolate_stakes, hnle, if_false, np_interp, hxne, Option.map_some']
    · rw [(List.perm_insertionSort _ _).length_eq]
      simp only [List.length_append, List.length_map, linspace_length]
      omega
    · exact List.sorted_insertionSort _ _

/-- Witness for C9 (amended): both branches at concrete inputs. -/
theorem claim_C9_interpolate_witness :
    interpolate_stakes [1] 1 = some [1] ∧
    ∃ l, interpolate_stakes [1, 3] 4 = some l ∧ l.length = 4 ∧
      l.Sorted (· ≤ ·) := by
  constructor
  · exact (claim_C9_interpolate [1] 1).1 (by norm_num)
  · exact (claim_C9_interpolate [1, 3] 4).2 (by simp) (by norm_num)

end ClaimC9

section SimulationLemmas

lemma getD_set_self {l : List ℕ} {i : ℕ} (h : i < l.length) (a : ℕ) :
    (l.set i a).getD i 0 = a := by
  rw [List.getD_eq_getElem?_getD, List.getElem?_set_self h]
  rfl

lemma getD_set_ne {l : List ℕ} {i j : ℕ} (h : i ≠ j) (a : ℕ) :
    (l.set i a).getD j 0 = l.getD j 0 := by
  rw [List.getD_eq_getElem?_getD, List.getElem?_set_ne h, ← List.getD_eq_getElem?_getD]

lemma foldl_insert_union (l : List ℕ) : ∀ s : Finset ℕ,
    l.foldl (fun sv i => insert i sv) s = s ∪ l.toFinset := by
  induction l with
  | nil => intro s; simp
  | cons a as ih =>
    intro s
    rw [List.foldl_cons, ih]
    ext x
    simp only [Finset.mem_union, Finset.mem_insert, List.toFinset_cons, List.mem_toFinset]
    tauto

lemma foldl_set_length (v : ℕ) (l : List ℕ) : ∀ st : List ℕ,
    (l.foldl (fun s i => s.set i v) st).length = st.length := by
  induction l with
  | nil => intro st; rfl
  | cons a as ih =>
    intro st
    rw [List.foldl_cons, ih, List.length_set]

lemma foldl_set_getD_not_mem (v : ℕ) (l : List ℕ) : ∀ (st : List ℕ) (j : ℕ), j ∉ l →
    (l.foldl (fun s i => s.set i v) st).getD j 0 = st.getD j 0 := by
  induction l with
  | nil => intro st j _; rfl
  | cons a as ih =>
    intro st j hj
    rw [List.foldl_cons, ih _ _ (fun h => hj (List.mem_cons_of_mem a h)),
      getD_set_ne (fun haj => hj (by rw [← haj]; exact List.mem_cons_self a as))]

lemma foldl_set_getD_mem (v : ℕ) (l : List ℕ) : ∀ (st : List ℕ) (j : ℕ),
    j ∈ l → l.Nodup → j < st.length →
    (l.foldl (fun s i => s.set i v) st).getD j 0 = v := by
  induction l with
  | nil => intro st j hj; cases hj
  | cons a as ih =>
    intro st j hj hnd hlen
    rcases List.mem_cons.mp hj with rfl | hjas
    · rw [List.foldl_cons,
        foldl_set_getD_not_mem v as _ _ (List.Nodup.not_mem hnd), getD_set_self hlen]
    · exact ih _ _ hjas (List.Nodup.of_cons hnd) (by rwa [List.length_set])

lemma drawDistinct_spec (pick : ℕ → ℕ) :
    ∀ (size : ℕ) (pool : List ℕ) (t : ℕ), size ≤ pool.length → pool.Nodup →
      (drawDistinct pick size pool t).length = size ∧
      (∀ x ∈ drawDistinct pick size pool t, x ∈ pool) ∧
      (drawDistinct pick size pool t).Nodup := by
  intro size
  induction size with
  | zero =>
    intro pool t _ _
    refine ⟨rfl, ?_, List.nodup_nil⟩
    intro x hx
    cases hx
  | succ size ih =>
    intro pool t hle hnd
    have hpos : 0 < pool.length := lt_of_lt_of_le (Nat.succ_pos size) hle
    have hmem : pool.getD (pick t % pool.length) 0 ∈ pool :=
      getD_mem_of_lt (Nat.mod_lt _ hpos) 0
    have herase : (pool.erase (pool.getD (pick t % pool.length) 0)).length =
        pool.length - 1 := List.length_erase_of_mem hmem
    have hle' : size ≤ (pool.erase (pool.getD (pick t % pool.length) 0)).length := by
      omega
    obtain ⟨ihlen, ihsub, ihnd⟩ :=
      ih (pool.erase (pool.getD (pick t % pool.length) 0)) (t + 1) hle' (hnd.erase _)
    refine ⟨?_, ?_, ?_⟩
    · simp only [drawDistinct, List.length_cons, ihlen]
    · intro x hx
      rcases List.mem_cons.mp hx with rfl | hx'
      · exact hmem
      · exact List.mem_of_mem_erase (ihsub x hx')
    · refine List.nodup_cons.mpr ⟨?_, ihnd⟩
      intro hcontr
      have := ihsub _ hcontr
      exact ((hnd.mem_erase_iff).mp this).1 rfl

lemma np_choice_some {available : List ℕ} {w : ℕ → ℚ} {size : ℕ} {pick : ℕ → ℕ}
    {chosen : List ℕ} (hnd : available.Nodup)
    (h : np_choice available w size pick = some chosen) :
    chosen.length = size ∧ chosen.Nodup ∧ ∀ i ∈ chosen, i ∈ available ∧ 0 < w i := by
  unfold np_choice at h
  split at h
  · cases h
  split at h
  · cases h
  split at h
  · cases h
  split at h
  · cases h
  rename_i h1 h2 h3 h4
  have hndpos : (available.filter (fun i => decide (0 < w i))).Nodup := hnd.filter _
  have hle : size ≤ (available.filter (fun i => decide (0 < w i))).length :=
    not_lt.mp h4
  obtain ⟨hlen, hsub, hnd'⟩ := drawDistinct_spec pick size _ 0 hle hndpos
  injection h with h
  subst h
  refine ⟨hlen, hnd', ?_⟩
  intro i hi
  have := hsub i hi
  have := List.mem_filter.mp this
  exact ⟨this.1, of_decide_eq_true this.2⟩

lemma np_choice_none_of_short {available : List ℕ} {w : ℕ → ℚ} {size : ℕ}
    {pick : ℕ → ℕ} (h : available.length < size) :
    np_choice available w size pick = none := by
  unfold np_choice
  split
  · rfl
  split
  · rfl
  split
  · rfl
  split
  · rfl
  rename_i h4
  exact absurd (lt_of_le_of_lt (List.length_filter_le _ _) h) h4

end SimulationLemmas

section Invariant

/-- Structural invariant tying the three serving-set representations of
`perform_simulation` together: the `states` array has one entry per stake,
the `serving` set is exactly the set of indices in state 1, and `choices` is,
as a multiset, the multiset of stakes of the serving indices. -/
def InvCore (stakes : List ℚ) (st : SimState) : Prop :=
  st.states.length = stakes.length ∧
  (∀ i, i ∈ st.serving ↔ st.states.getD i 0 = 1) ∧
  (st.choices : Multiset ℚ) = st.serving.val.map (fun i => stakes.getD i 0)

/-- Full round invariant: structural invariant plus the size accounting — the
serving set is `rotate_number` members short of `samples` (or the run has not
admitted anyone yet, in which case `choices` is empty). -/
def SimInv (stakes : List ℚ) (samples : ℕ) (st : SimState) : Prop :=
  InvCore stakes st ∧
  (st.choices = [] ∨ st.serving.card + st.rotate_number = samples)

lemma serving_lt_length {stakes : List ℚ} {st : SimState} (h : InvCore stakes st)
    {i : ℕ} (hi : i ∈ st.serving) : i < st.states.length := by
  by_contra hge
  have h0 : st.states.getD i 0 = 0 := by
    rw [List.getD_eq_getElem?_getD, List.getElem?_eq_none (not_lt.mp hge)]
    rfl
  have := (h.2.1 i).mp hi
  omega

lemma choices_card {stakes : List ℚ} {st : SimState} (h : InvCore stakes st) :
    st.choices.length = st.serving.card := by
  have := congrArg Multiset.card h.2.2
  simpa using this

lemma inv_init (stakes : List ℚ) (samples : ℕ) :
    SimInv stakes samples (initState stakes.length) := by
  refine ⟨⟨by simp [initState], ?_, by simp [initState]⟩, Or.inl rfl⟩
  intro i
  simp only [initState, Finset.not_mem_empty, false_iff]
  intro hcontr
  have : (List.replicate stakes.length 0).getD i 0 = 0 := by
    rw [List.getD_eq_getElem?_getD]
    rcases lt_or_ge i stakes.length with h | h
    · rw [List.getElem?_replicate_of_lt h]
      rfl
    · rw [List.getElem?_eq_none (by simpa using h)]
      rfl
  omega

/-- Properties of the eligible pool produced by the refill scan. -/
lemma refill_scan_mem (count : ℕ) (states : List ℕ) (i : ℕ) :
    i ∈ (refill_scan count states).1 ↔ i < count ∧ states.getD i 0 = 0 := by
  simp [refill_scan, List.mem_filter, List.mem_range]

lemma refill_scan_nodup (count : ℕ) (states : List ℕ) :
    (refill_scan count states).1.Nodup :=
  (List.nodup_range count).filter _

lemma refill_scan_states_getD (states : List ℕ) (i : ℕ) :
    (refill_scan count states).2.getD i 0 =
      if states.getD i 0 = 2 then 0 else states.getD i 0 := by
  show ((states.map fun s => if s = 2 then 0 else s).getD i 0) = _
  rw [List.getD_eq_getElem?_getD, List.getElem?_map, List.getD_eq_getElem?_getD]
  cases states[i]? with
  | none => rfl
  | some v => rfl

lemma refill_scan_states_length (count : ℕ) (states : List ℕ) :
    (refill_scan count states).2.length = states.length := by
  simp [refill_scan]

end Invariant

section RefillLemmas

/-- Decomposition of a successful REFILL: the drawn index list and the three
updated fields. -/
lemma refill_some {stakes : List ℚ} {samples : ℕ} {sPick : ℕ → ℕ}
    {st st1 : SimState} (h : refill stakes samples sPick st = some st1) :
    ∃ chosen : List ℕ,
      np_choice (refill_scan stakes.length st.states).1
          (fun i => stakes.getD i 0 / stakes.sum) (selectCount samples st) sPick =
        some chosen ∧
      st1.states = chosen.foldl (fun s i => s.set i 1)
        (refill_scan stakes.length st.states).2 ∧
      st1.serving = st.serving ∪ chosen.toFinset ∧
      st1.choices = st.choices ++ chosen.map (fun i => stakes.getD i 0) ∧
      st1.rotate_number = st.rotate_number ∧
      st1.mins = st.mins ∧ st1.maxs = st.maxs ∧ st1.ncCounts = st.ncCounts := by
  unfold refill at h
  split at h
  · cases h
  · rename_i chosen heq
    refine ⟨chosen, heq, ?_⟩
    rw [foldl_insert_union] at h
    injection h with h
    subst h
    exact ⟨rfl, rfl, rfl, rfl, rfl, rfl, rfl⟩

/-- A successful REFILL restores the serving set to exactly `samples` members
and preserves the structural invariant; cooling indices from the previous
round become idle and stay out of the round's serving set. -/
lemma inv_refill {stakes : List ℚ} {samples : ℕ} {sPick : ℕ → ℕ}
    {st st1 : SimState} (hinv : SimInv stakes samples st)
    (h : refill stakes samples sPick st = some st1) :
    InvCore stakes st1 ∧ st1.serving.card = samples ∧
    st1.serving.card = st.serving.card + selectCount samples st ∧
    st1.rotate_number = st.rotate_number ∧ st1.ncCounts = st.ncCounts ∧
    (∀ j, st.states.getD j 0 = 2 →
      st1.states.getD j 0 = 0 ∧ j ∉ st1.serving) := by
  obtain ⟨chosen, hnp, hstates, hserving, hchoices, hrot, hmins, hmaxs, hcounts⟩ :=
    refill_some h
  obtain ⟨⟨hlen, hiff, hmul⟩, hsize⟩ := hinv
  obtain ⟨hclen, hcnd, hcmem⟩ := np_choice_some (refill_scan_nodup _ _) hnp
  have hcavail : ∀ i ∈ chosen, i < stakes.length ∧ st.states.getD i 0 = 0 :=
    fun i hi => (refill_scan_mem _ _ i).mp (hcmem i hi).1
  have hdisj : Disjoint st.serving chosen.toFinset := by
    rw [Finset.disjoint_right]
    intro i hic his
    have := (hiff i).mp his
    have := (hcavail i (List.mem_toFinset.mp hic)).2
    omega
  have hcard1 : st1.serving.card = st.serving.card + selectCount samples st := by
    rw [hserving, Finset.card_union_of_disjoint hdisj, List.toFinset_card_of_nodup hcnd, hclen]
  have hcard : st1.serving.card = samples := by
    rcases hsize with hemp | hbal
    · have hserv0 : st.serving.card = 0 := by
        rw [← choices_card ⟨hlen, hiff, hmul⟩, hemp]
        rfl
      have : selectCount samples st = samples := by
        simp [selectCount, hemp]
      omega
    · have hne : st.choices.length ≠ 0 ∨ st.choices.length = 0 := em _ |>.symm.imp id id
      by_cases hc0 : st.choices.length = 0
      · have : st.serving.card = 0 := by rw [← choices_card ⟨hlen, hiff, hmul⟩]; omega
        have : st.rotate_number = samples := by omega
        have hsel : selectCount samples st = st.rotate_number := by
          simp only [selectCount]
          split <;> omega
        omega
      · have hsel : selectCount samples st = st.rotate_number := by
          simp [selectCount, hc0]
        omega
  have hlen1 : st1.states.length = stakes.length := by
    rw [hstates, foldl_set_length, refill_scan_states_length]
    exact hlen
  have hiff1 : ∀ i, i ∈ st1.serving ↔ st1.states.getD i 0 = 1 := by
    intro i
    by_cases hic : i ∈ chosen
    · constructor
      · intro _
        rw [hstates, foldl_set_getD_mem 1 chosen _ i hic hcnd]
        rw [refill_scan_states_length]
        exact hlen ▸ (hcavail i hic).1
      · intro _
        rw [hserving]
        exact Finset.mem_union_right _ (List.mem_toFinset.mpr hic)
    · have hsts : st1.states.getD i 0 =
          if st.states.getD i 0 = 2 then 0 else st.states.getD i 0 := by
        rw [hstates, foldl_set_getD_not_mem 1 chosen _ i hic, refill_scan_states_getD]
      constructor
      · intro hmem
        rw [hserving] at hmem
        rcases Finset.mem_union.mp hmem with hmem | hmem
        · have := (hiff i).mp hmem
          rw [hsts, this]
          simp
        · exact absurd (List.mem_toFinset.mp hmem) hic
      · intro h1
        rw [hsts] at h1
        have : st.states.getD i 0 = 1 := by
          by_cases h2 : st.states.getD i 0 = 2
          · rw [if_pos h2] at h1; omega
          · rwa [if_neg h2] at h1
        rw [hserving]
        exact Finset.mem_union_left _ ((hiff i).mpr this)
  have hmul1 : (st1.choices : Multiset ℚ) =
      st1.serving.val.map (fun i => stakes.getD i 0) := by
    rw [hchoices, hserving]
    have hval : (st.serving ∪ chosen.toFinset).val =
        st.serving.val + chosen.toFinset.val := by
      rw [← Finset.disjUnion_eq_union st.serving chosen.toFinset hdisj]
      rfl
    have hded : chosen.toFinset.val = (chosen : Multiset ℕ) := by
      rw [List.toFinset_val, List.dedup_eq_self.mpr hcnd]
    rw [hval, Multiset.map_add, ← hmul, hded]
    rfl
  refine ⟨⟨hlen1, hiff1, hmul1⟩, hcard, hcard1, hrot, hcounts, ?_⟩
  intro j hj2
  have hjnc : j ∉ chosen := by
    intro hjc
    have := (hcavail j hjc).2
    omega
  have hjst : st1.states.getD j 0 = 0 := by
    rw [hstates, foldl_set_getD_not_mem 1 chosen _ j hjnc, refill_scan_states_getD,
      if_pos hj2]
  refine ⟨hjst, ?_⟩
  intro hjs
  have := (hiff1 j).mp hjs
  omega

end RefillLemmas

section MeasureEvictLemmas

/-- Decomposition of a successful MEASURE: the membership fields are
untouched, the statistics are those of `analyze_stakes` on the current
`choices` (with nonzero total, else the round aborts), and the bucket
counters are advanced by one classification. -/
lemma measureRound_some {stakes : List ℚ} {nci : Finset ℕ} {st st2 : SimState}
    {stats : ℚ × ℕ × ℕ} (h : measureRound stakes nci st = some (st2, stats)) :
    st2.states = st.states ∧ st2.serving = st.serving ∧ st2.choices = st.choices ∧
    st2.rotate_number = st.rotate_number ∧
    stats = analyze_stakes st.choices stakes.sum ∧
    (analyze_stakes st.choices stakes.sum).1 ≠ 0 ∧
    st2.ncCounts = classify_buckets
      ((Finset.sum (st.serving.filter (fun i => i ∈ nci)) fun i => stakes.getD i 0) /
        (analyze_stakes st.choices stakes.sum).1) st.ncCounts := by
  simp only [measureRound] at h
  split at h
  · cases h
  · rename_i hne
    injection h with h
    have h1 := congrArg Prod.fst h
    have h2 := congrArg Prod.snd h
    simp only at h1 h2
    subst h1
    subst h2
    exact ⟨rfl, rfl, rfl, rfl, rfl, hne, rfl⟩

/-- The eviction fold (src/sample.py lines 121-124) over a duplicate-free list
of currently-serving indices: removes exactly those indices from the serving
set, removes one occurrence of each of their stake values from `choices`
(preserving the multiset invariant even when distinct indices carry equal
stakes), marks them cooling, and touches nothing else. -/
lemma evictFold_spec (stakes : List ℚ) :
    ∀ (l : List ℕ) (s : SimState), l.Nodup → (∀ i ∈ l, i ∈ s.serving) →
      (∀ i ∈ l, i < s.states.length) →
      (s.choices : Multiset ℚ) = s.serving.val.map (fun i => stakes.getD i 0) →
      (l.foldl (evictStep stakes) s).serving = s.serving \ l.toFinset ∧
      ((l.foldl (evictStep stakes) s).choices : Multiset ℚ) =
        (l.foldl (evictStep stakes) s).serving.val.map (fun i => stakes.getD i 0) ∧
      (l.foldl (evictStep stakes) s).states.length = s.states.length ∧
      (∀ j, j ∉ l → (l.foldl (evictStep stakes) s).states.getD j 0 = s.states.getD j 0) ∧
      (∀ j ∈ l, (l.foldl (evictStep stakes) s).states.getD j 0 = 2) ∧
      (l.foldl (evictStep stakes) s).rotate_number = s.rotate_number ∧
      (l.foldl (evictStep stakes) s).mins = s.mins ∧
      (l.foldl (evictStep stakes) s).maxs = s.maxs ∧
      (l.foldl (evictStep stakes) s).ncCounts = s.ncCounts := by
  intro l
  induction l with
  | nil =>
    intro s _ _ _ hmul
    refine ⟨by simp, hmul, rfl, fun j _ => rfl, fun j hj => absurd hj (List.not_mem_nil j),
      rfl, rfl, rfl, rfl⟩
  | cons a as ih =>
    intro s hnd hsub hlenb hmul
    have has : a ∈ s.serving := hsub a (List.mem_cons_self a as)
    have haval : a ∈ s.serving.val := has
    have hstep_mul : ((evictStep stakes s a).choices : Multiset ℚ) =
        (evictStep stakes s a).serving.val.map (fun i => stakes.getD i 0) := by
      show ((s.choices.erase (stakes.getD a 0) : List ℚ) : Multiset ℚ) =
        (s.serving.erase a).val.map (fun i => stakes.getD i 0)
      rw [← Multiset.coe_erase, hmul, Finset.erase_val]
      conv_lhs => rw [← Multiset.cons_erase haval]
      rw [Multiset.map_cons, Multiset.erase_cons_head]
    have hsub' : ∀ i ∈ as, i ∈ (evictStep stakes s a).serving := by
      intro i hi
      have hia : i ≠ a := fun hia => (List.nodup_cons.mp hnd).1 (hia ▸ hi)
      exact Finset.mem_erase.mpr ⟨hia, hsub i (List.mem_cons_of_mem a hi)⟩
    have hlen' : ∀ i ∈ as, i < (evictStep stakes s a).states.length := by
      intro i hi
      show i < (s.states.set a 2).length
      rw [List.length_set]
      exact hlenb i (List.mem_cons_of_mem a hi)
    obtain ⟨ihserv, ihmul, ihlen, ihout, ihin, ihrot, ihmins, ihmaxs, ihcounts⟩ :=
      ih (evictStep stakes s a) (List.nodup_cons.mp hnd).2 hsub' hlen' hstep_mul
    rw [List.foldl_cons]
    refine ⟨?_, ihmul, ?_, ?_, ?_, ihrot, ihmins, ihmaxs, ihcounts⟩
    · rw [ihserv]
      show s.serving.erase a \ as.toFinset = _
      ext x
      simp only [Finset.mem_sdiff, Finset.mem_erase, List.toFinset_cons,
        Finset.mem_insert, List.mem_toFinset]
      tauto
    · rw [ihlen]
      show (s.states.set a 2).length = s.states.length
      exact List.length_set s.states a 2
    · intro j hj
      have hja : j ≠ a := fun hja => hj (hja ▸ List.mem_cons_self a as)
      have hjas : j ∉ as := fun hjas => hj (List.mem_cons_of_mem a hjas)
      rw [ihout j hjas]
      show (s.states.set a 2).getD j 0 = s.states.getD j 0
      exact getD_set_ne (fun h => hja h.symm) 2
    · intro j hj
      rcases List.mem_cons.mp hj with rfl | hjas
      · have hjnas : j ∉ as := (List.nodup_cons.mp hnd).1
        rw [ihout j hjnas]
        show (s.states.set j 2).getD j 0 = 2
        exact getD_set_self (hlenb j (List.mem_cons_self j as)) 2
      · exact ihin j hjas

end MeasureEvictLemmas

section StepLemmas

/-- The eviction set returned by `select_stakes` over the serving candidates
is a subset of the serving set. -/
lemma select_stakes_subset {stakes : List ℚ} {target : ℚ} {c : Finset ℕ}
    {pick : ℕ → ℕ} {res : Finset ℕ} {s b : ℚ}
    (h : select_stakes stakes target (some c) pick = some (res, s, b)) : res ⊆ c := by
  simp only [select_stakes] at h
  split at h
  · cases h
  · split at h
    · cases h
    · simp only [Option.some.injEq, Prod.mk.injEq] at h
      rw [← h.1]
      exact selectLoop_subset stakes target pick stakes.length 0 _ 0 ∅ _ c
        (fun x hx => (Finset.mem_sort _).mp hx) (Finset.empty_subset c)

/-- Decomposition of a successful EVICT: some subset of the serving indices is
removed by the eviction fold, and the eviction count is stored as the next
admission quota. -/
lemma evict_some {stakes : List ℚ} {rotation : ℚ} {rPick : ℕ → ℕ}
    {st st' : SimState} {stats : ℚ × ℕ × ℕ}
    (h : evict stakes rotation rPick st stats = some st') :
    ∃ rem : Finset ℕ, rem ⊆ st.serving ∧
      ∃ mins' maxs',
        st' = (rem.sort (· ≤ ·)).foldl (evictStep stakes)
          { st with mins := mins', maxs := maxs', rotate_number := rem.card } := by
  simp only [evict] at h
  split at h
  · cases h
  · rename_i out rem rs bc heq
    injection h with h
    exact ⟨rem, select_stakes_subset heq, _, _, h.symm⟩

/-- A successful EVICT restores the full invariant (with the new
`rotate_number` balancing the shrunk serving set), leaves the bucket counters
alone, and does not touch the state of any non-serving index. -/
lemma inv_evict {stakes : List ℚ} {samples : ℕ} {rotation : ℚ} {rPick : ℕ → ℕ}
    {st st' : SimState} {stats : ℚ × ℕ × ℕ}
    (hcore : InvCore stakes st) (hcard : st.serving.card = samples)
    (h : evict stakes rotation rPick st stats = some st') :
    SimInv stakes samples st' ∧ st'.ncCounts = st.ncCounts ∧
    (∀ j, j ∉ st.serving → st'.states.getD j 0 = st.states.getD j 0) := by
  obtain ⟨rem, hsub, mins', maxs', hst'⟩ := evict_some h
  set s0 : SimState :=
    { st with mins := mins', maxs := maxs', rotate_number := rem.card } with hs0
  have hsort_nd : (rem.sort (· ≤ ·)).Nodup := rem.sort_nodup _
  have hsort_mem : ∀ i ∈ rem.sort (· ≤ ·), i ∈ s0.serving := by
    intro i hi
    exact hsub ((Finset.mem_sort _).mp hi)
  have hsort_len : ∀ i ∈ rem.sort (· ≤ ·), i < s0.states.length := by
    intro i hi
    exact serving_lt_length hcore (hsub ((Finset.mem_sort _).mp hi))
  have hs0mul : (s0.choices : Multiset ℚ) =
      s0.serving.val.map (fun i => stakes.getD i 0) := hcore.2.2
  obtain ⟨hserv, hmul, hlen, hout, hin, hrot, _, _, hcnt⟩ :=
    evictFold_spec stakes (rem.sort (· ≤ ·)) s0 hsort_nd hsort_mem hsort_len hs0mul
  rw [← hst'] at hserv hmul hlen hout hin hrot hcnt
  rw [Finset.sort_toFinset] at hserv
  have hremcard : rem.card ≤ samples := hcard ▸ Finset.card_le_card hsub
  have hcard' : st'.serving.card = samples - rem.card := by
    rw [hserv]
    show (st.serving \ rem).card = samples - rem.card
    rw [Finset.card_sdiff hsub, hcard]
  have hiff' : ∀ i, i ∈ st'.serving ↔ st'.states.getD i 0 = 1 := by
    intro i
    by_cases hir : i ∈ rem
    · have h2 : st'.states.getD i 0 = 2 :=
        hin i ((Finset.mem_sort _).mpr hir)
      constructor
      · intro hmem
        rw [hserv] at hmem
        exact absurd hir (Finset.mem_sdiff.mp hmem).2
      · intro h1
        omega
    · have hsame : st'.states.getD i 0 = st.states.getD i 0 := by
        rw [hout i (fun hc => hir ((Finset.mem_sort _).mp hc))]
      constructor
      · intro hmem
        rw [hserv] at hmem
        rw [hsame]
        exact (hcore.2.1 i).mp (Finset.mem_sdiff.mp hmem).1
      · intro h1
        rw [hserv]
        rw [hsame] at h1
        exact Finset.mem_sdiff.mpr ⟨(hcore.2.1 i).mpr h1, hir⟩
  have hlen' : st'.states.length = stakes.length := by
    rw [hlen]
    exact hcore.1
  refine ⟨⟨⟨hlen', hiff', hmul⟩, Or.inr ?_⟩, hcnt, ?_⟩
  · rw [hcard', hrot]
    show samples - rem.card + rem.card = samples
    omega
  · intro j hjs
    have hjr : j ∉ rem.sort (· ≤ ·) := by
      intro hc
      exact hjs (hsub ((Finset.mem_sort _).mp hc))
    rw [hout j hjr]

/-- One bucket classification adds at most one to the bucket totals. -/
lemma classify_buckets_le (ratio : ℚ) (c : ℕ × ℕ × ℕ) :
    (classify_buckets ratio c).1 + (classify_buckets ratio c).2.1 +
      (classify_buckets ratio c).2.2 ≤ c.1 + c.2.1 + c.2.2 + 1 := by
  obtain ⟨c1, c2, c3⟩ := c
  unfold classify_buckets
  split
  · dsimp only
    omega
  · split
    · dsimp only
      omega
    · split
      · dsimp only
        omega
      · dsimp only
        omega

/-- One full round preserves the invariant, advances the bucket totals by at
most one, and resets every cooling index to idle without re-admitting it. -/
lemma inv_step {stakes : List ℚ} {nci : Finset ℕ} {samples : ℕ} {rotation : ℚ}
    {sPick rPick : ℕ → ℕ} {st st' : SimState} (hinv : SimInv stakes samples st)
    (h : stepRound stakes nci samples rotation sPick rPick st = some st') :
    SimInv stakes samples st' ∧
    st'.ncCounts.1 + st'.ncCounts.2.1 + st'.ncCounts.2.2 ≤
      st.ncCounts.1 + st.ncCounts.2.1 + st.ncCounts.2.2 + 1 ∧
    (∀ j, st.states.getD j 0 = 2 → st'.states.getD j 0 = 0) := by
  unfold stepRound at h
  cases hre : refill stakes samples sPick st with
  | none => rw [hre] at h; cases h
  | some st1 =>
    rw [hre, Option.some_bind] at h
    cases hme : measureRound stakes nci st1 with
    | none => rw [hme] at h; cases h
    | some ms =>
      obtain ⟨st2, stats⟩ := ms
      rw [hme, Option.some_bind] at h
      obtain ⟨hcore1, hcard1, hadm1, hrot1, hcnt1, hcool1⟩ := inv_refill hinv hre
      obtain ⟨hm_states, hm_serving, hm_choices, hm_rot, hm_stats, hm_ne, hm_cnt⟩ :=
        measureRound_some hme
      have hcore2 : InvCore stakes st2 := by
        refine ⟨?_, ?_, ?_⟩
        · rw [hm_states]; exact hcore1.1
        · intro i; rw [hm_serving, hm_states]; exact hcore1.2.1 i
        · rw [hm_choices, hm_serving]; exact hcore1.2.2
      have hcard2 : st2.serving.card = samples := by rw [hm_serving]; exact hcard1
      obtain ⟨hinv', hcnt', hpres'⟩ := inv_evict hcore2 hcard2 h
      refine ⟨hinv', ?_, ?_⟩
      · rw [hcnt', hm_cnt, hcnt1]
        exact classify_buckets_le _ _
      · intro j hj2
        obtain ⟨hj0, hjnot⟩ := hcool1 j hj2
        have hjnot2 : j ∉ st2.serving := by rw [hm_serving]; exact hjnot
        rw [hpres' j hjnot2, hm_states, hj0]

/-- Running `n` rounds from an invariant state preserves the invariant and
grows the bucket totals by at most `n`. -/
lemma runFrom_some_inv {stakes : List ℚ} {nci : Finset ℕ} {samples : ℕ}
    {rotation : ℚ} {sPick rPick : ℕ → ℕ → ℕ} :
    ∀ (n r : ℕ) (st st' : SimState), SimInv stakes samples st →
      runFrom stakes nci samples rotation sPick rPick r n st = some st' →
      SimInv stakes samples st' ∧
      st'.ncCounts.1 + st'.ncCounts.2.1 + st'.ncCounts.2.2 ≤
        st.ncCounts.1 + st.ncCounts.2.1 + st.ncCounts.2.2 + n := by
  intro n
  induction n with
  | zero =>
    intro r st st' hinv h
    injection h with h
    subst h
    exact ⟨hinv, by omega⟩
  | succ n ih =>
    intro r st st' hinv h
    simp only [runFrom] at h
    cases hstep : stepRound stakes nci samples rotation (sPick r) (rPick r) st with
    | none => rw [hstep] at h; cases h
    | some st1 =>
      rw [hstep, Option.some_bind] at h
      obtain ⟨hinv1, hcnt1, _⟩ := inv_step hinv hstep
      obtain ⟨hinv', hcnt'⟩ := ih (r + 1) st1 st' hinv1 h
      exact ⟨hinv', by omega⟩

/-- Splitting a run of `a + b` rounds. -/
lemma runFrom_append {stakes : List ℚ} {nci : Finset ℕ} {samples : ℕ}
    {rotation : ℚ} {sPick rPick : ℕ → ℕ → ℕ} :
    ∀ (a b r : ℕ) (st : SimState),
      runFrom stakes nci samples rotation sPick rPick r (a + b) st =
        (runFrom stakes nci samples rotation sPick rPick r a st).bind
          (runFrom stakes nci samples rotation sPick rPick (r + a) b) := by
  intro a
  induction a with
  | zero =>
    intro b r st
    simp [runFrom]
  | succ a ih =>
    intro b r st
    have hadd : a + 1 + b = (a + b) + 1 := by omega
    rw [hadd]
    simp only [runFrom]
    cases hstep : stepRound stakes nci samples rotation (sPick r) (rPick r) st with
    | none => simp
    | some st1 =>
      simp only [Option.some_bind]
      rw [ih b (r + 1) st1]
      have hr : r + 1 + a = r + (a + 1) := by omega
      rw [hr]

end StepLemmas

section MainClaims

/-- C1: in every run of `perform_simulation` whose admission steps succeed so
far, the serving set has exactly `samples` members at every measurement point:
after round `r`'s refill (the state in which `analyze_stakes` is invoked) the
serving set has exactly `samples` members, round 0 having admitted `samples`
members into the empty set and each later round exactly `selectCount` members
(which is the previous round's eviction count `rotate_number` whenever
`choices` is non-empty, i.e. whenever the previous eviction was partial). -/
theorem claim_C1_serving_size (stakes : List ℚ) (nci : Finset ℕ) (samples : ℕ)
    (rotation : ℚ) (sPick rPick : ℕ → ℕ → ℕ) (r : ℕ) (st st1 : SimState)
    (hrun : runFrom stakes nci samples rotation sPick rPick 0 r
      (initState stakes.length) = some st)
    (href : refill stakes samples (sPick r) st = some st1) :
    st1.serving.card = samples ∧
    st1.serving.card = st.serving.card + selectCount samples st ∧
    (st.choices ≠ [] → selectCount samples st = st.rotate_number) := by
  have hinv := (runFrom_some_inv r 0 _ _ (inv_init stakes samples) hrun).1
  obtain ⟨_, hcard, hadm, _⟩ := inv_refill hinv href
  refine ⟨hcard, hadm, ?_⟩
  intro hne
  simp only [selectCount]
  rw [if_neg (fun h => hne (List.length_eq_zero.mp h))]

/-- C3: at every invocation of `analyze_stakes` inside the round loop (i.e.
in every post-refill state of a round), the `choices` list is, as a multiset,
exactly the multiset of stakes of the serving indices — even though eviction
removes stakes from `choices` by value — and hence the reported round total
is exactly the sum of the serving members' weights. -/
theorem claim_C3_choices_multiset (stakes : List ℚ) (nci : Finset ℕ)
    (samples : ℕ) (rotation : ℚ) (sPick rPick : ℕ → ℕ → ℕ) (r : ℕ)
    (st st1 : SimState)
    (hrun : runFrom stakes nci samples rotation sPick rPick 0 r
      (initState stakes.length) = some st)
    (href : refill stakes samples (sPick r) st = some st1) :
    (st1.choices : Multiset ℚ) = st1.serving.val.map (fun i => stakes.getD i 0) ∧
    (analyze_stakes st1.choices stakes.sum).1 =
      st1.serving.sum (fun i => stakes.getD i 0) := by
  have hinv := (runFrom_some_inv r 0 _ _ (inv_init stakes samples) hrun).1
  obtain ⟨hcore1, _⟩ := inv_refill hinv href
  refine ⟨hcore1.2.2, ?_⟩
  rw [analyze_stakes_total, Finset.sum_eq_multiset_sum, ← hcore1.2.2]
  exact (Multiset.sum_coe st1.choices).symm

/-- C4: the post-eviction cooldown lasts exactly one round.  If index `i` was
evicted during round `r` (it is COOLING, state 2, in the state reached after
`r + 1` rounds), then `i` is not in the eligible admission pool that round
`r + 1` builds; and after round `r + 1` completes, `i` is IDLE (state 0)
again and a member of the eligible pool that round `r + 2` would build. -/
theorem claim_C4_cooldown (stakes : List ℚ) (nci : Finset ℕ) (samples : ℕ)
    (rotation : ℚ) (sPick rPick : ℕ → ℕ → ℕ) (r i : ℕ) (st st' : SimState)
    (hrun : runFrom stakes nci samples rotation sPick rPick 0 (r + 1)
      (initState stakes.length) = some st)
    (hcool : st.states.getD i 0 = 2)
    (hstep : stepRound stakes nci samples rotation (sPick (r + 1)) (rPick (r + 1)) st =
      some st') :
    i ∉ (refill_scan stakes.length st.states).1 ∧
    st'.states.getD i 0 = 0 ∧
    i ∈ (refill_scan stakes.length st'.states).1 := by
  have hinv := (runFrom_some_inv (r + 1) 0 _ _ (inv_init stakes samples) hrun).1
  have hidle : st'.states.getD i 0 = 0 := (inv_step hinv hstep).2.2 i hcool
  refine ⟨?_, hidle, ?_⟩
  · intro hc
    have := (refill_scan_mem _ _ i).mp hc
    omega
  · have hlt : i < st.states.length := by
      by_contra hge
      rw [List.getD_eq_getElem?_getD, List.getElem?_eq_none (not_lt.mp hge)] at hcool
      simp at hcool
    exact (refill_scan_mem _ _ i).mpr ⟨hinv.1.1 ▸ hlt, hidle⟩

/-- C6: in every round the non-conforming ratio classification increments
exactly one tertile bucket when the ratio exceeds 1/3 — bucket 0 on
(1/3, 1/2], bucket 1 on (1/2, 2/3], bucket 2 on (2/3, ∞) — and none when the
ratio is at most 1/3; consequently over any successful run of `rounds`
rounds the three final bucket counts sum to at most `rounds`. -/
theorem claim_C6_tertile_buckets :
    (∀ (ratio : ℚ) (c : ℕ × ℕ × ℕ),
      (1 / 3 < ratio → ratio ≤ 1 / 2 →
        classify_buckets ratio c = (c.1 + 1, c.2.1, c.2.2)) ∧
      (1 / 2 < ratio → ratio ≤ 2 / 3 →
        classify_buckets ratio c = (c.1, c.2.1 + 1, c.2.2)) ∧
      (2 / 3 < ratio → classify_buckets ratio c = (c.1, c.2.1, c.2.2 + 1)) ∧
      (ratio ≤ 1 / 3 → classify_buckets ratio c = c)) ∧
    (∀ (stakes : List ℚ) (nci : Finset ℕ) (samples : ℕ) (rotation : ℚ)
      (sPick rPick : ℕ → ℕ → ℕ) (rounds : ℕ) (st : SimState),
      runFrom stakes nci samples rotation sPick rPick 0 rounds
        (initState stakes.length) = some st →
      st.ncCounts.1 + st.ncCounts.2.1 + st.ncCounts.2.2 ≤ rounds) := by
  constructor
  · intro ratio c
    refine ⟨?_, ?_, ?_, ?_⟩
    · intro h1 h2
      have hn23 : ¬ 2 / 3 < ratio := by linarith
      have hn12 : ¬ 1 / 2 < ratio := not_lt.mpr h2
      unfold classify_buckets
      rw [if_neg hn23, if_neg hn12, if_pos h1]
    · intro h1 h2
      have hn23 : ¬ 2 / 3 < ratio := not_lt.mpr h2
      unfold classify_buckets
      rw [if_neg hn23, if_pos h1]
    · intro h1
      unfold classify_buckets
      rw [if_pos h1]
    · intro h1
      have hn23 : ¬ 2 / 3 < ratio := by linarith
      have hn12 : ¬ 1 / 2 < ratio := by linarith
      have hn13 : ¬ 1 / 3 < ratio := not_lt.mpr h1
      unfold classify_buckets
      rw [if_neg hn23, if_neg hn12, if_neg hn13]
  · intro stakes nci samples rotation sPick rPick rounds st h
    have := (runFrom_some_inv rounds 0 _ _ (inv_init stakes samples) h).2
    simpa [initState] using this

/-- C7: if at the refill step of some round the eligible (IDLE) pool is
smaller than that round's requested admission count, `np.random.choice`
raises and the whole run fails: `perform_simulation` returns no result at
all, never a partial one. -/
theorem claim_C7_insufficient_pool (stakes : List ℚ) (nci : Finset ℕ)
    (samples : ℕ) (rotation : ℚ) (sPick rPick : ℕ → ℕ → ℕ) (rounds r : ℕ)
    (st : SimState)
    (hrun : runFrom stakes nci samples rotation sPick rPick 0 r
      (initState stakes.length) = some st)
    (hlt : r < rounds)
    (hshort : ((refill_scan stakes.length st.states).1).length <
      selectCount samples st) :
    perform_simulation stakes nci samples rotation rounds sPick rPick = none := by
  have hstep : stepRound stakes nci samples rotation (sPick r) (rPick r) st = none := by
    unfold stepRound refill
    rw [np_choice_none_of_short hshort]
    rfl
  unfold perform_simulation
  obtain ⟨k, hk⟩ : ∃ k, rounds = r + (k + 1) := ⟨rounds - r - 1, by omega⟩
  rw [hk, runFrom_append r (k + 1) 0 _, hrun, Option.some_bind]
  have hnone : runFrom stakes nci samples rotation sPick rPick (0 + r) (k + 1) st =
      none := by
    simp only [runFrom, Nat.zero_add]
    rw [hstep]
    rfl
  rw [hnone]
  rfl

end MainClaims

section C5Claim

/-- C5: for every list of stakes and nonnegative population total `S`,
`analyze_stakes` returns exactly the triple (sum of the stakes, number of
stakes strictly above `0.003 * S`, number of stakes strictly below
`0.00002 * S`); nonnegativity of `S` makes the high limit at least the low
limit, so the `elif` in the source cannot suppress a low count. -/
theorem claim_C5_analyze_stakes (stakes : List ℚ) (S : ℚ) (hS : 0 ≤ S) :
    analyze_stakes stakes S =
      (stakes.sum,
       stakes.countP (fun s => decide (S * (3 / 1000) < s)),
       stakes.countP (fun s => decide (s < S * (2 / 100000)))) :=
  analyze_stakes_eq stakes S hS

/-- Witness for C5 at `stakes = [1, 0]`, `S = 100`. -/
theorem claim_C5_analyze_stakes_witness :
    analyze_stakes [1, 0] 100 =
      (([1, 0] : List ℚ).sum,
       ([1, 0] : List ℚ).countP (fun s => decide ((100 : ℚ) * (3 / 1000) < s)),
       ([1, 0] : List ℚ).countP (fun s => decide (s < (100 : ℚ) * (2 / 100000)))) :=
  claim_C5_analyze_stakes [1, 0] 100 (by norm_num)

end C5Claim

section ConcreteWitnessStates

/-- Round 0 of the run with stakes `[1, 1, 1]`, no adversarial set,
`samples = 2`, `rotation = 0`, both oracles drawing position 0. -/
def witC1run : Option SimState :=
  runFrom [1, 1, 1] ∅ 2 0 (fun _ _ => 0) (fun _ _ => 0) 0 1
    (initState ([1, 1, 1] : List ℚ).length)

lemma witC1run_isSome : witC1run.isSome = true := by with_unfolding_all decide

/-- The state reached after that round. -/
def witC1 : SimState := witC1run.get witC1run_isSome

lemma witC1run_eq : runFrom [1, 1, 1] ∅ 2 0 (fun _ _ => 0) (fun _ _ => 0) 0 1
    (initState ([1, 1, 1] : List ℚ).length) = some witC1 :=
  (Option.some_get witC1run_isSome).symm

def witC1ref : Option SimState := refill [1, 1, 1] 2 ((fun _ _ => 0) 1) witC1

lemma witC1ref_isSome : witC1ref.isSome = true := by with_unfolding_all decide

/-- The measurement-point state of round 1 of that run. -/
def witC1' : SimState := witC1ref.get witC1ref_isSome

lemma witC1ref_eq : refill [1, 1, 1] 2 ((fun _ _ => 0) 1) witC1 = some witC1' :=
  (Option.some_get witC1ref_isSome).symm

/-- Witness for C1: at round 1's measurement point of the `[1, 1, 1]` run the
serving set has exactly `samples = 2` members, round 1 having admitted
exactly `selectCount` (= previous eviction count) members. -/
theorem claim_C1_serving_size_witness :
    witC1'.serving.card = 2 ∧
    witC1'.serving.card = witC1.serving.card + selectCount 2 witC1 ∧
    (witC1.choices ≠ [] → selectCount 2 witC1 = witC1.rotate_number) :=
  claim_C1_serving_size [1, 1, 1] ∅ 2 0 (fun _ _ => 0) (fun _ _ => 0) 1 witC1 witC1'
    witC1run_eq witC1ref_eq

/-- Round 0 of the run with stakes `[2, 1, 1]`, adversarial set `{0}`,
`samples = 2`, `rotation = 50`, oracles drawing position 0 (round 0 admits
indices 0 and 1 and evicts index 0). -/
def witC3run : Option SimState :=
  runFrom [2, 1, 1] {0} 2 50 (fun _ _ => 0) (fun _ _ => 0) 0 1
    (initState ([2, 1, 1] : List ℚ).length)

lemma witC3run_isSome : witC3run.isSome = true := by with_unfolding_all decide

def witC3 : SimState := witC3run.get witC3run_isSome

lemma witC3run_eq : runFrom [2, 1, 1] {0} 2 50 (fun _ _ => 0) (fun _ _ => 0) 0 1
    (initState ([2, 1, 1] : List ℚ).length) = some witC3 :=
  (Option.some_get witC3run_isSome).symm

def witC3ref : Option SimState := refill [2, 1, 1] 2 ((fun _ _ => 0) 1) witC3

lemma witC3ref_isSome : witC3ref.isSome = true := by with_unfolding_all decide

/-- The measurement-point state of round 1: index 2 is admitted, its stake
value 1 joining `choices` next to the equal stake value of index 1. -/
def witC3' : SimState := witC3ref.get witC3ref_isSome

lemma witC3ref_eq : refill [2, 1, 1] 2 ((fun _ _ => 0) 1) witC3 = some witC3' :=
  (Option.some_get witC3ref_isSome).symm

/-- Witness for C3: at round 1's measurement point of the `[2, 1, 1]` run,
`choices` is exactly the multiset of stakes of the serving set (two distinct
serving indices carry the equal stake 1), and the reported total equals the
serving weight sum. -/
theorem claim_C3_choices_multiset_witness :
    (witC3'.choices : Multiset ℚ) =
      witC3'.serving.val.map (fun i => ([2, 1, 1] : List ℚ).getD i 0) ∧
    (analyze_stakes witC3'.choices ([2, 1, 1] : List ℚ).sum).1 =
      witC3'.serving.sum (fun i => ([2, 1, 1] : List ℚ).getD i 0) :=
  claim_C3_choices_multiset [2, 1, 1] {0} 2 50 (fun _ _ => 0) (fun _ _ => 0) 1
    witC3 witC3' witC3run_eq witC3ref_eq

/-- Round 0 of the run with stakes `[1, 1, 1]`, no adversarial set,
`samples = 1`, `rotation = 100`: index 0 is admitted, measured and
immediately evicted, so it ends the round COOLING. -/
def witC4run : Option SimState :=
  runFrom [1, 1, 1] ∅ 1 100 (fun _ _ => 0) (fun _ _ => 0) 0 1
    (initState ([1, 1, 1] : List ℚ).length)

lemma witC4run_isSome : witC4run.isSome = true := by with_unfolding_all decide

def witC4 : SimState := witC4run.get witC4run_isSome

lemma witC4run_eq : runFrom [1, 1, 1] ∅ 1 100 (fun _ _ => 0) (fun _ _ => 0) 0 1
    (initState ([1, 1, 1] : List ℚ).length) = some witC4 :=
  (Option.some_get witC4run_isSome).symm

def witC4step : Option SimState :=
  stepRound [1, 1, 1] ∅ 1 100 ((fun _ _ => 0) 1) ((fun _ _ => 0) 1) witC4

lemma witC4step_isSome : witC4step.isSome = true := by with_unfolding_all decide

/-- The state after round 1 of that run. -/
def witC4' : SimState := witC4step.get witC4step_isSome

lemma witC4step_eq :
    stepRound [1, 1, 1] ∅ 1 100 ((fun _ _ => 0) 1) ((fun _ _ => 0) 1) witC4 =
      some witC4' :=
  (Option.some_get witC4step_isSome).symm

/-- Witness for C4: index 0, evicted at the end of round 0, is excluded from
round 1's eligible pool, and is IDLE and eligible again at the start of
round 2. -/
theorem claim_C4_cooldown_witness :
    0 ∉ (refill_scan ([1, 1, 1] : List ℚ).length witC4.states).1 ∧
    witC4'.states.getD 0 0 = 0 ∧
    0 ∈ (refill_scan ([1, 1, 1] : List ℚ).length witC4'.states).1 :=
  claim_C4_cooldown [1, 1, 1] ∅ 1 100 (fun _ _ => 0) (fun _ _ => 0) 0 0 witC4 witC4'
    witC4run_eq (by with_unfolding_all decide) witC4step_eq

/-- The single round of the run with stakes `[1, 1]`, adversarial set `{0}`,
`samples = 1`, `rotation = 50`: the serving member is index 0, the
adversarial ratio is 1, bucket 2 is incremented. -/
def witC6run : Option SimState :=
  runFrom [1, 1] {0} 1 50 (fun _ _ => 0) (fun _ _ => 0) 0 1
    (initState ([1, 1] : List ℚ).length)

lemma witC6run_isSome : witC6run.isSome = true := by with_unfolding_all decide

def witC6 : SimState := witC6run.get witC6run_isSome

lemma witC6run_eq : runFrom [1, 1] {0} 1 50 (fun _ _ => 0) (fun _ _ => 0) 0 1
    (initState ([1, 1] : List ℚ).length) = some witC6 :=
  (Option.some_get witC6run_isSome).symm

/-- Witness for C6: the bucket-0 classification at ratio `2/5`, and the
bucket totals of a concrete one-round run (which classified ratio 1 into
bucket 2) not exceeding the round count. -/
theorem claim_C6_tertile_buckets_witness :
    classify_buckets (2 / 5) ((0 : ℕ), (0 : ℕ), (0 : ℕ)) =
      (((0 : ℕ), (0 : ℕ), (0 : ℕ)).1 + 1, ((0 : ℕ), (0 : ℕ), (0 : ℕ)).2.1,
        ((0 : ℕ), (0 : ℕ), (0 : ℕ)).2.2) ∧
    witC6.ncCounts.1 + witC6.ncCounts.2.1 + witC6.ncCounts.2.2 ≤ 1 := by
  constructor
  · exact (claim_C6_tertile_buckets.1 (2 / 5) ((0 : ℕ), (0 : ℕ), (0 : ℕ))).1
      (by norm_num) (by norm_num)
  · exact claim_C6_tertile_buckets.2 [1, 1] {0} 1 50 (fun _ _ => 0) (fun _ _ => 0) 1
      witC6 witC6run_eq

/-- Round 0 of the run with stakes `[1, 1]`, no adversarial set,
`samples = 2`, `rotation = 100`: both members are admitted and both evicted,
so both end the round COOLING and round 1's eligible pool is empty. -/
def witC7run : Option SimState :=
  runFrom [1, 1] ∅ 2 100 (fun _ _ => 0) (fun _ _ => 0) 0 1
    (initState ([1, 1] : List ℚ).length)

lemma witC7run_isSome : witC7run.isSome = true := by with_unfolding_all decide

def witC7 : SimState := witC7run.get witC7run_isSome

lemma witC7run_eq : runFrom [1, 1] ∅ 2 100 (fun _ _ => 0) (fun _ _ => 0) 0 1
    (initState ([1, 1] : List ℚ).length) = some witC7 :=
  (Option.some_get witC7run_isSome).symm

/-- Witness for C7: rotating 100 percent of two members leaves an empty
eligible pool in round 1 while 2 members are requested, so the two-round run
returns no result at all (`none`). -/
theorem claim_C7_insufficient_pool_witness :
    perform_simulation [1, 1] ∅ 2 100 2 (fun _ _ => 0) (fun _ _ => 0) = none :=
  claim_C7_insufficient_pool [1, 1] ∅ 2 100 (fun _ _ => 0) (fun _ _ => 0) 2 1 witC7
    witC7run_eq (by norm_num) (by with_unfolding_all decide)

end ConcreteWitnessStates
